import Mathlib

/-!
Shallow embedding of `src/src/lib.rs` (crate `rmbuf`): the growable byte
buffer `MBuf` and the size-bucketed pool `MBufPool`.

Modelling conventions:
- Bytes are `Nat` (no arithmetic is ever performed on byte values).
- The raw heap allocation of an `MBuf` is a `List Nat`; the source field
  `buffer_len` always equals the allocated size, so here it is the list
  length (`MBuf.buffer_len`).
- Uninitialized memory returned by `alloc`/`realloc` is modelled as zero
  bytes; no operation ever reads a byte it has not written, so the choice
  is unobservable through the API.
- Allocation is modelled as always succeeding, so `MBuf::append`, whose
  only error path is a failed `realloc`, is total here.
- `MBuf::set_data` panics when the data exceeds capacity; the panic is
  modelled as `none`.
- The `HashMap<usize, Vec<MBuf>>` of the pool is an association list with
  `HashMap::insert` (replace-or-add) and lookup semantics; `Vec::pop`
  removes the last element, `Vec::push` appends at the end.
-/

/-- Rust struct `MBuf`: `buffer` is the owned allocation, `data_len` the
number of valid bytes at its front, `pos` the cursor. -/
structure MBuf where
  buffer : List Nat
  data_len : Nat
  pos : Nat
deriving DecidableEq

/-- The source field `buffer_len` (total allocated size). -/
def MBuf.buffer_len (m : MBuf) : Nat := m.buffer.length

/-- `MBuf::new(buffer_len)`: allocates `buffer_len` bytes, zero length,
zero position. -/
def MBuf.new (n : Nat) : MBuf :=
  { buffer := List.replicate n 0, data_len := 0, pos := 0 }

/-- `ptr::copy_nonoverlapping(src, dst + off, src.len())` on the modelled
allocation: overwrite `src.length` bytes of `dst` starting at offset `off`. -/
def copy_to (dst : List Nat) (off : Nat) (src : List Nat) : List Nat :=
  dst.take off ++ src ++ dst.drop (off + src.length)

/-- `MBuf::grow(additional)`: reallocates to `buffer_len + additional`
bytes, preserving the existing bytes (success path of `realloc`). -/
def MBuf.grow (m : MBuf) (additional : Nat) : MBuf :=
  { m with buffer := m.buffer ++ List.replicate additional 0 }

/-- `MBuf::append(data)`: grows by exactly `data.len()` when
`data_len + data.len() > buffer_len`, then copies `data` at offset
`data_len` and increments `data_len`. -/
def MBuf.append (m : MBuf) (data : List Nat) : MBuf :=
  let m1 := if m.data_len + data.length > m.buffer_len
            then m.grow data.length else m
  { m1 with
      buffer := copy_to m1.buffer m1.data_len data,
      data_len := m1.data_len + data.length }

/-- `MBuf::data()`: read-only view of the first `data_len` bytes. -/
def MBuf.data (m : MBuf) : List Nat := m.buffer.take m.data_len

/-- `MBuf::set_data(data)`: panics (modelled as `none`) when
`data.len() > buffer_len`; otherwise copies `data` at offset 0, sets
`data_len` and resets `pos` to 0. -/
def MBuf.set_data (m : MBuf) (data : List Nat) : Option MBuf :=
  if data.length > m.buffer_len then none
  else some { m with
                buffer := copy_to m.buffer 0 data,
                data_len := data.length,
                pos := 0 }

/-- A single in-bounds write through the slice returned by
`MBuf::data_mut()` (indexing the slice past `data_len` panics, modelled
as `none`). -/
def MBuf.data_mut_set (m : MBuf) (i v : Nat) : Option MBuf :=
  if i < m.data_len then some { m with buffer := m.buffer.set i v }
  else none

/-- `MBuf::clear()`: resets `data_len` and `pos` to 0, capacity untouched. -/
def MBuf.clear (m : MBuf) : MBuf :=
  { m with data_len := 0, pos := 0 }

/-- Rust struct `MBufPool { pool: HashMap<usize, Vec<MBuf>> }`, the map
modelled as an association list. -/
structure MBufPool where
  pool : List (Nat × List MBuf)
deriving DecidableEq

/-- `HashMap::get` on the association list. -/
def hmGet (m : List (Nat × List MBuf)) (k : Nat) : Option (List MBuf) :=
  match m with
  | [] => none
  | (k1, v) :: rest => if k1 = k then some v else hmGet rest k

/-- `HashMap::insert` on the association list: replaces the binding of an
existing key, otherwise adds a new one. -/
def hmInsert (m : List (Nat × List MBuf)) (k : Nat) (v : List MBuf) :
    List (Nat × List MBuf) :=
  match m with
  | [] => [(k, v)]
  | (k1, v1) :: rest =>
      if k1 = k then (k, v) :: rest else (k1, v1) :: hmInsert rest k v

/-- `MBufPool::new()`: empty map. -/
def MBufPool.new : MBufPool := { pool := [] }

/-- One warm-up loop of `MBufPool::initialize`:
`for _ in 0..n { self.pool.insert(k, vec![MBuf::new(k)]) }` — each
iteration replaces the bucket with a fresh one-element vector. -/
def MBufPool.initLoop (p : MBufPool) (n k : Nat) : MBufPool :=
  match n with
  | 0 => p
  | Nat.succ n1 => MBufPool.initLoop { pool := hmInsert p.pool k [MBuf.new k] } n1 k

/-- `MBufPool::initialize()`: the six warm-up loops, in source order. -/
def MBufPool.init (p : MBufPool) : MBufPool :=
  (((((p.initLoop 100 1024).initLoop 100 2048).initLoop 20
      4096).initLoop 10 8192).initLoop 5 16384).initLoop 2 32768

/-- The size-adjustment ladder at the top of `MBufPool::take`: the chain
of strict `<` comparisons; `none` models the early `return None`. -/
def adjust_size (size : Nat) : Option Nat :=
  if size < 1024 then some 1024
  else if size < 2048 then some 2048
  else if size < 4096 then some 4096
  else if size < 8192 then some 8192
  else if size < 16384 then some 16384
  else if size < 32768 then some 32768
  else none

/-- `MBufPool::take(size)`: resolve the class, then pop the bucket
(`Vec::pop`, last element) or fall back to a fresh `MBuf::new(size)` when
the bucket exists but is empty; `none` when no class resolves or the map
has no bucket for the class. Returns the result and the updated pool. -/
def MBufPool.take (p : MBufPool) (size : Nat) : Option MBuf × MBufPool :=
  match adjust_size size with
  | none => (none, p)
  | some sz =>
    match hmGet p.pool sz with
    | none => (none, p)
    | some mbufs =>
      match mbufs.getLast? with
      | some buf => (some buf, { pool := hmInsert p.pool sz mbufs.dropLast })
      | none => (some (MBuf.new sz), p)

/-- `MBufPool::give(buf)`: push the buffer onto the bucket keyed by its
current `buffer_len`; if no such bucket exists the buffer is dropped and
the pool is unchanged. -/
def MBufPool.give (p : MBufPool) (buf : MBuf) : MBufPool :=
  match hmGet p.pool (MBuf.buffer_len buf) with
  | some mbufs => { pool := hmInsert p.pool (MBuf.buffer_len buf) (mbufs ++ [buf]) }
  | none => p

/-- The fixed capacity ladder of the pool. -/
def ladder : List Nat := [1024, 2048, 4096, 8192, 16384, 32768]

/-- Pool invariant: every buffer stored under bucket key `k` has
capacity `k`. -/
def PoolInv (p : MBufPool) : Prop :=
  ∀ e ∈ p.pool, ∀ b ∈ e.2, MBuf.buffer_len b = e.1

/-! Helper lemmas about the association-list map. -/

theorem hmInsert_hmInsert_same (m : List (Nat × List MBuf)) (k : Nat)
    (v w : List MBuf) : hmInsert (hmInsert m k v) k w = hmInsert m k w := by
  induction m with
  | nil => simp [hmInsert]
  | cons e rest ih =>
    obtain ⟨k1, v1⟩ := e
    by_cases h : k1 = k
    · subst h
      simp [hmInsert]
    · simp [hmInsert, h, ih]

theorem mem_hmInsert {m : List (Nat × List MBuf)} {k : Nat}
    {v : List MBuf} {e : Nat × List MBuf} (h : e ∈ hmInsert m k v) :
    e = (k, v) ∨ e ∈ m := by
  induction m with
  | nil => simpa [hmInsert] using h
  | cons e1 rest ih =>
    obtain ⟨k1, v1⟩ := e1
    by_cases hk : k1 = k
    · subst hk
      rw [show hmInsert ((k1, v1) :: rest) k1 v = (k1, v) :: rest from by
        simp [hmInsert]] at h
      rcases List.mem_cons.1 h with h1 | h1
      · exact Or.inl h1
      · exact Or.inr (List.mem_cons_of_mem _ h1)
    · rw [show hmInsert ((k1, v1) :: rest) k v = (k1, v1) :: hmInsert rest k v from by
        simp [hmInsert, hk]] at h
      rcases List.mem_cons.1 h with h1 | h1
      · exact Or.inr (by simp [h1])
      · rcases ih h1 with h2 | h2
        · exact Or.inl h2
        · exact Or.inr (List.mem_cons_of_mem _ h2)

theorem hmGet_mem {m : List (Nat × List MBuf)} {k : Nat} {v : List MBuf}
    (h : hmGet m k = some v) : (k, v) ∈ m := by
  induction m with
  | nil => simp [hmGet] at h
  | cons e1 rest ih =>
    obtain ⟨k1, v1⟩ := e1
    by_cases hk : k1 = k
    · subst hk
      rw [show hmGet ((k1, v1) :: rest) k1 = some v1 from by simp [hmGet]] at h
      injection h with hv
      subst hv
      exact List.mem_cons_self _ _
    · rw [show hmGet ((k1, v1) :: rest) k = hmGet rest k from by
        simp [hmGet, hk]] at h
      exact List.mem_cons_of_mem _ (ih h)

theorem hmGet_hmInsert_self (m : List (Nat × List MBuf)) (k : Nat)
    (v : List MBuf) : hmGet (hmInsert m k v) k = some v := by
  induction m with
  | nil => simp [hmInsert, hmGet]
  | cons e1 rest ih =>
    obtain ⟨k1, v1⟩ := e1
    by_cases hk : k1 = k
    · subst hk
      simp [hmInsert, hmGet]
    · simp [hmInsert, hmGet, hk, ih]

/-! Helper lemmas about the warm-up loops. -/

theorem initLoop_succ (p : MBufPool) (n k : Nat) :
    p.initLoop (n + 1) k = { pool := hmInsert p.pool k [MBuf.new k] } := by
  induction n generalizing p with
  | zero => rfl
  | succ n1 ih =>
    show MBufPool.initLoop { pool := hmInsert p.pool k [MBuf.new k] } (n1 + 1) k = _
    rw [ih]
    simp [hmInsert_hmInsert_same]

theorem init_new_pool : (MBufPool.init MBufPool.new).pool =
    [(1024, [MBuf.new 1024]), (2048, [MBuf.new 2048]),
     (4096, [MBuf.new 4096]), (8192, [MBuf.new 8192]),
     (16384, [MBuf.new 16384]), (32768, [MBuf.new 32768])] := by
  show (((((((MBufPool.new.initLoop (99 + 1) 1024).initLoop (99 + 1)
      2048).initLoop (19 + 1) 4096).initLoop (9 + 1) 8192).initLoop (4 + 1)
      16384).initLoop (1 + 1) 32768)).pool = _
  rw [initLoop_succ, initLoop_succ, initLoop_succ, initLoop_succ,
    initLoop_succ, initLoop_succ]
  rfl

/-! Helper lemmas about the copy operation and `MBuf`. -/

theorem length_copy_to (dst : List Nat) (off : Nat) (src : List Nat)
    (h : off + src.length ≤ dst.length) :
    (copy_to dst off src).length = dst.length := by
  simp only [copy_to, List.length_append, List.length_take, List.length_drop]
  omega

theorem take_copy_to (dst : List Nat) (off : Nat) (src : List Nat)
    (h : off ≤ dst.length) :
    (copy_to dst off src).take (off + src.length) = dst.take off ++ src := by
  have hlen : (dst.take off).length = off := by
    simp [List.length_take]
    omega
  calc (copy_to dst off src).take (off + src.length)
      = (dst.take off ++ (src ++ dst.drop (off + src.length))).take
          ((dst.take off).length + src.length) := by
        simp [copy_to, hlen]
    _ = dst.take off ++ (src ++ dst.drop (off + src.length)).take src.length := by
        rw [List.take_append]
    _ = dst.take off ++ src := by
        rw [List.take_left]

theorem buffer_len_new (n : Nat) : MBuf.buffer_len (MBuf.new n) = n := by
  simp [MBuf.buffer_len, MBuf.new]

theorem data_new (n : Nat) : (MBuf.new n).data = [] := by
  simp [MBuf.data, MBuf.new]

theorem append_eq_no_grow (m : MBuf) (d : List Nat)
    (h : m.data_len + d.length ≤ MBuf.buffer_len m) :
    m.append d = { buffer := copy_to m.buffer m.data_len d,
                   data_len := m.data_len + d.length, pos := m.pos } := by
  simp only [MBuf.append]
  split
  · next hgt => omega
  · rfl

theorem append_eq_grow (m : MBuf) (d : List Nat)
    (h : MBuf.buffer_len m < m.data_len + d.length) :
    m.append d =
      { buffer := copy_to (m.buffer ++ List.replicate d.length 0) m.data_len d,
        data_len := m.data_len + d.length, pos := m.pos } := by
  simp only [MBuf.append]
  split
  · rfl
  · next hng => omega

theorem append_fits (m : MBuf) (d : List Nat)
    (h : m.data_len + d.length ≤ MBuf.buffer_len m) :
    MBuf.buffer_len (m.append d) = MBuf.buffer_len m ∧
    (m.append d).data_len = m.data_len + d.length ∧
    (m.append d).data = m.data ++ d := by
  have hoff : m.data_len ≤ m.buffer.length := le_trans (Nat.le_add_right _ _) h
  rw [append_eq_no_grow m d h]
  refine ⟨?_, rfl, ?_⟩
  · show (copy_to m.buffer m.data_len d).length = MBuf.buffer_len m
    exact length_copy_to _ _ _ h
  · show (copy_to m.buffer m.data_len d).take (m.data_len + d.length) = m.data ++ d
    exact take_copy_to m.buffer m.data_len d hoff

theorem append_grows (m : MBuf) (d : List Nat)
    (h0 : m.data_len ≤ MBuf.buffer_len m)
    (h : MBuf.buffer_len m < m.data_len + d.length) :
    MBuf.buffer_len (m.append d) = MBuf.buffer_len m + d.length ∧
    (m.append d).data_len = m.data_len + d.length ∧
    (m.append d).data = m.data ++ d := by
  have hlen1 : (m.buffer ++ List.replicate d.length 0).length =
      m.buffer.length + d.length := by simp
  have hfit : m.data_len + d.length ≤ (m.buffer ++ List.replicate d.length 0).length := by
    rw [hlen1]
    exact Nat.add_le_add_right h0 d.length
  have hoff : m.data_len ≤ (m.buffer ++ List.replicate d.length 0).length := by
    rw [hlen1]
    exact le_trans h0 (Nat.le_add_right _ _)
  rw [append_eq_grow m d h]
  refine ⟨?_, rfl, ?_⟩
  · show (copy_to (m.buffer ++ List.replicate d.length 0) m.data_len d).length =
      MBuf.buffer_len m + d.length
    rw [length_copy_to _ _ _ hfit, hlen1]
    rfl
  · show (copy_to (m.buffer ++ List.replicate d.length 0) m.data_len d).take
      (m.data_len + d.length) = m.data ++ d
    rw [take_copy_to _ _ _ hoff, List.take_append_of_le_length h0]
    rfl

/-! Helper lemmas about `adjust_size` and `take` on the warmed-up pool. -/

theorem adjust_size_eq_find (r : Nat) :
    adjust_size r = ladder.find? (fun c => decide (r < c)) := by
  by_cases h1 : r < 1024 <;> by_cases h2 : r < 2048 <;>
    by_cases h3 : r < 4096 <;> by_cases h4 : r < 8192 <;>
    by_cases h5 : r < 16384 <;> by_cases h6 : r < 32768 <;>
    simp [adjust_size, ladder, List.find?, h1, h2, h3, h4, h5, h6]

theorem adjust_size_none_iff (r : Nat) :
    adjust_size r = none ↔ 32768 ≤ r := by
  simp only [adjust_size]
  split_ifs <;> simp <;> omega

theorem adjust_size_mem {r sz : Nat} (h : adjust_size r = some sz) :
    sz ∈ ladder := by
  simp only [adjust_size] at h
  split_ifs at h <;> simp_all [ladder]

theorem hmGet_init {sz : Nat} (h : sz ∈ ladder) :
    hmGet (MBufPool.init MBufPool.new).pool sz = some [MBuf.new sz] := by
  rw [init_new_pool]
  fin_cases h <;> rfl

theorem take_init_eq (r : Nat) :
    ((MBufPool.init MBufPool.new).take r).1.map MBuf.buffer_len =
      adjust_size r := by
  cases h : adjust_size r with
  | none => simp [MBufPool.take, h]
  | some sz =>
    have hm := adjust_size_mem h
    simp [MBufPool.take, h, hmGet_init hm, List.getLast?_singleton,
      buffer_len_new]

/-! The claims. -/

/-- Claim C1 counterexample: the claim says take(r) returns None iff
r > 32768, but on the warmed-up pool take(32768) returns None although
32768 is not greater than 32768; and the claim says the returned capacity
is the smallest class ≥ r, but take(1024) returns capacity 2048 while the
smallest ladder class ≥ 1024 is 1024 itself. -/
theorem take_at_32768_counterexample :
    ((MBufPool.init MBufPool.new).take 32768).1 = none ∧ ¬ (32768 > 32768) ∧
    ((MBufPool.init MBufPool.new).take 1024).1.map MBuf.buffer_len =
      some 2048 ∧
    ladder.find? (fun c => decide (1024 ≤ c)) = some 1024 ∧ (2048 : Nat) ≠ 1024 :=
  ⟨rfl, by decide, by rw [take_init_eq]; rfl, by decide, by decide⟩

/-- Claim C1 (amended): after the warm-up, take(r) returns None iff
r ≥ 32768; otherwise the returned buffer's capacity is the smallest
capacity class strictly greater than r. -/
theorem take_after_init_spec (r : Nat) :
    (((MBufPool.init MBufPool.new).take r).1 = none ↔ 32768 ≤ r) ∧
    ((MBufPool.init MBufPool.new).take r).1.map MBuf.buffer_len =
      ladder.find? (fun c => decide (r < c)) := by
  constructor
  · rw [← adjust_size_none_iff, ← take_init_eq r]
    exact Iff.symm Option.map_eq_none'
  · rw [take_init_eq, adjust_size_eq_find]

/-- Claim C2 (code-bug evidence): after the warm-up every one of the six
buckets holds exactly one idle buffer — not the per-class quota of
100, 100, 20, 10, 5, 2 — because each loop iteration replaces the bucket
with a fresh one-element vector. -/
theorem init_buckets_hold_one_buffer_each :
    ((MBufPool.init MBufPool.new).pool.map (fun e => (e.1, e.2.length))) =
      [(1024, 1), (2048, 1), (4096, 1), (8192, 1), (16384, 1), (32768, 1)] := by
  rw [init_new_pool]
  rfl

/-- Claim C3: an append that overflows capacity grows capacity by exactly
the incoming size, and afterwards the data view is the pre-existing valid
bytes followed by the appended bytes. -/
theorem append_overflow_grows_exactly (m : MBuf) (d : List Nat)
    (hwf : m.data_len ≤ MBuf.buffer_len m)
    (hover : MBuf.buffer_len m < m.data_len + d.length) :
    MBuf.buffer_len (m.append d) = MBuf.buffer_len m + d.length ∧
    (m.append d).data = m.data ++ d :=
  ⟨(append_grows m d hwf hover).1, (append_grows m d hwf hover).2.2⟩

/-- Claim C3 witness: a concrete overflowing append on a 1-byte buffer. -/
theorem append_overflow_grows_exactly_witness :
    ((MBuf.new 1).data_len ≤ MBuf.buffer_len (MBuf.new 1)) ∧
    (MBuf.buffer_len (MBuf.new 1) <
      (MBuf.new 1).data_len + ([7, 8, 9] : List Nat).length) ∧
    (MBuf.buffer_len ((MBuf.new 1).append [7, 8, 9]) =
        MBuf.buffer_len (MBuf.new 1) + ([7, 8, 9] : List Nat).length ∧
      ((MBuf.new 1).append [7, 8, 9]).data = (MBuf.new 1).data ++ [7, 8, 9]) :=
  ⟨by decide, by decide,
    append_overflow_grows_exactly (MBuf.new 1) [7, 8, 9] (by decide) (by decide)⟩

/-- Claim C4: take resolves the class by a strict less-than walk over the
ladder, so a request of exactly 1024 yields a buffer of capacity 2048. -/
theorem take_strict_ladder :
    (∀ r : Nat, adjust_size r = ladder.find? (fun c => decide (r < c))) ∧
    ((MBufPool.init MBufPool.new).take 1024).1.map MBuf.buffer_len =
      some 2048 := by
  refine ⟨adjust_size_eq_find, ?_⟩
  rw [take_init_eq]
  rfl

/-- Folding appends whose total size fits in the remaining capacity never
grows the buffer and concatenates the chunks after the existing data. -/
theorem foldl_append_within (chunks : List (List Nat)) :
    ∀ m : MBuf, m.data_len + (chunks.map List.length).sum ≤ MBuf.buffer_len m →
    MBuf.buffer_len (chunks.foldl MBuf.append m) = MBuf.buffer_len m ∧
    (chunks.foldl MBuf.append m).data_len =
      m.data_len + (chunks.map List.length).sum ∧
    (chunks.foldl MBuf.append m).data = m.data ++ chunks.flatten := by
  induction chunks with
  | nil => intro m h; simp
  | cons d rest ih =>
    intro m h
    have hsum : m.data_len + (d.length + (rest.map List.length).sum) ≤
        MBuf.buffer_len m := by simpa using h
    have hd : m.data_len + d.length ≤ MBuf.buffer_len m := by omega
    obtain ⟨hb, hl, hdata⟩ := append_fits m d hd
    have hnext : (m.append d).data_len + (rest.map List.length).sum ≤
        MBuf.buffer_len (m.append d) := by
      rw [hb, hl]
      omega
    obtain ⟨ib, il, idata⟩ := ih (m.append d) hnext
    refine ⟨?_, ?_, ?_⟩
    · simpa [hb] using ib
    · simp only [List.foldl_cons, List.map_cons, List.sum_cons]
      rw [il, hl]
      omega
    · simp only [List.foldl_cons, List.flatten_cons]
      rw [idata, hdata, List.append_assoc]

/-- Claim C5: any sequence of appends on a fresh buffer whose total size
fits the initial capacity leaves capacity unchanged and makes the data
view the concatenation of the chunks in order. -/
theorem appends_within_capacity (c : Nat) (chunks : List (List Nat))
    (h : (chunks.map List.length).sum ≤ c) :
    MBuf.buffer_len (chunks.foldl MBuf.append (MBuf.new c)) = c ∧
    (chunks.foldl MBuf.append (MBuf.new c)).data = chunks.flatten := by
  have h0 : (MBuf.new c).data_len + (chunks.map List.length).sum ≤
      MBuf.buffer_len (MBuf.new c) := by
    simpa [MBuf.new, MBuf.buffer_len] using h
  obtain ⟨hb, _, hdata⟩ := foldl_append_within chunks (MBuf.new c) h0
  refine ⟨?_, ?_⟩
  · rw [hb, buffer_len_new]
  · rw [hdata, data_new]
    rfl

/-- Claim C5 witness: two appends totalling 3 bytes into a 5-byte buffer. -/
theorem appends_within_capacity_witness :
    ((([[1, 2], [3]] : List (List Nat)).map List.length).sum ≤ 5) ∧
    (MBuf.buffer_len
        (([[1, 2], [3]] : List (List Nat)).foldl MBuf.append (MBuf.new 5)) = 5 ∧
      (([[1, 2], [3]] : List (List Nat)).foldl MBuf.append (MBuf.new 5)).data =
        ([[1, 2], [3]] : List (List Nat)).flatten) :=
  ⟨by decide, appends_within_capacity 5 [[1, 2], [3]] (by decide)⟩

/-- Claim C6: set_data succeeds exactly on data that fits the capacity, in
which case the data view becomes the given bytes and the position resets
to 0; oversized data is a fatal contract violation (modelled as `none`),
leaving no modified buffer behind. -/
theorem set_data_spec (m : MBuf) (d : List Nat) :
    (d.length ≤ MBuf.buffer_len m →
      ∃ m1, m.set_data d = some m1 ∧ m1.data = d ∧ m1.pos = 0) ∧
    (MBuf.buffer_len m < d.length → m.set_data d = none) := by
  constructor
  · intro h
    have hng : ¬ (d.length > MBuf.buffer_len m) := Nat.not_lt.2 h
    refine ⟨MBuf.mk (copy_to m.buffer 0 d) d.length 0, ?_, ?_, rfl⟩
    · simp [MBuf.set_data, hng]
    · show (copy_to m.buffer 0 d).take d.length = d
      have h1 := take_copy_to m.buffer 0 d (Nat.zero_le _)
      simpa using h1
  · intro h
    simp [MBuf.set_data, h]

/-- Claim C6 witness: a fitting and an oversized set_data on a 2-byte
buffer. -/
theorem set_data_spec_witness :
    (([5] : List Nat).length ≤ MBuf.buffer_len (MBuf.new 2)) ∧
    (∃ m1, (MBuf.new 2).set_data [5] = some m1 ∧ m1.data = [5] ∧ m1.pos = 0) ∧
    (MBuf.buffer_len (MBuf.new 2) < ([5, 6, 7] : List Nat).length) ∧
    ((MBuf.new 2).set_data [5, 6, 7] = none) :=
  ⟨by decide, (set_data_spec (MBuf.new 2) [5]).1 (by decide),
    by decide, (set_data_spec (MBuf.new 2) [5, 6, 7]).2 (by decide)⟩

/-- Inserting a bucket whose buffers all have capacity equal to its key
preserves the pool invariant. -/
theorem poolInv_hmInsert {p : List (Nat × List MBuf)} {k : Nat}
    {v : List MBuf} (hp : ∀ e ∈ p, ∀ b ∈ e.2, MBuf.buffer_len b = e.1)
    (hv : ∀ b ∈ v, MBuf.buffer_len b = k) :
    ∀ e ∈ hmInsert p k v, ∀ b ∈ e.2, MBuf.buffer_len b = e.1 := by
  intro e he b hb
  rcases mem_hmInsert he with h1 | h1
  · subst h1
    exact hv b hb
  · exact hp e h1 b hb

/-- Each warm-up loop preserves the pool invariant. -/
theorem poolInv_initLoop : ∀ (n : Nat) (p : MBufPool) (k : Nat),
    PoolInv p → PoolInv (p.initLoop n k) := by
  intro n
  induction n with
  | zero => intro p k h; exact h
  | succ n1 ih =>
    intro p k h
    show PoolInv (MBufPool.initLoop { pool := hmInsert p.pool k [MBuf.new k] } n1 k)
    apply ih
    intro e he b hb
    refine poolInv_hmInsert h ?_ e he b hb
    intro b1 hb1
    rw [List.mem_singleton.1 hb1]
    exact buffer_len_new k

/-- Claim C7: give stores a returned buffer under the bucket keyed by its
current capacity, is a no-op when no bucket exists for that exact
capacity, and the invariant that every buffer under key k has capacity k
holds for the empty pool and is preserved by the warm-up, take and give. -/
theorem pool_bucket_capacity_invariant :
    (∀ (p : MBufPool) (b : MBuf),
      hmGet p.pool (MBuf.buffer_len b) = none → p.give b = p) ∧
    (∀ (p : MBufPool) (b : MBuf) (bs : List MBuf),
      hmGet p.pool (MBuf.buffer_len b) = some bs →
      hmGet (p.give b).pool (MBuf.buffer_len b) = some (bs ++ [b])) ∧
    PoolInv MBufPool.new ∧
    (∀ p : MBufPool, PoolInv p → PoolInv (MBufPool.init p)) ∧
    (∀ (p : MBufPool) (r : Nat), PoolInv p → PoolInv ((p.take r).2)) ∧
    (∀ (p : MBufPool) (b : MBuf), PoolInv p → PoolInv (p.give b)) := by
  refine ⟨?_, ?_, ?_, ?_, ?_, ?_⟩
  · intro p b h
    simp [MBufPool.give, h]
  · intro p b bs h
    simp [MBufPool.give, h, hmGet_hmInsert_self]
  · intro e he b hb
    simp [MBufPool.new] at he
  · intro p h
    exact poolInv_initLoop 2 _ 32768 (poolInv_initLoop 5 _ 16384
      (poolInv_initLoop 10 _ 8192 (poolInv_initLoop 20 _ 4096
        (poolInv_initLoop 100 _ 2048 (poolInv_initLoop 100 _ 1024 h)))))
  · intro p r h
    cases hadj : adjust_size r with
    | none => simpa [MBufPool.take, hadj] using h
    | some sz =>
      cases hg : hmGet p.pool sz with
      | none => simpa [MBufPool.take, hadj, hg] using h
      | some mbufs =>
        cases hl : mbufs.getLast? with
        | none => simpa [MBufPool.take, hadj, hg, hl] using h
        | some buf =>
          simp only [MBufPool.take, hadj, hg, hl]
          intro e he b hb
          rcases mem_hmInsert he with h1 | h1
          · subst h1
            exact h _ (hmGet_mem hg) b (List.dropLast_subset mbufs hb)
          · exact h e h1 b hb
  · intro p b h
    cases hg : hmGet p.pool (MBuf.buffer_len b) with
    | none => simpa [MBufPool.give, hg] using h
    | some mbufs =>
      simp only [MBufPool.give, hg]
      intro e he b1 hb1
      rcases mem_hmInsert he with h1 | h1
      · subst h1
        rcases List.mem_append.1 hb1 with h2 | h2
        · exact h _ (hmGet_mem hg) b1 h2
        · rw [List.mem_singleton.1 h2]
      · exact h e h1 b1 hb1

/-- Claim C7 witness: giving a buffer of non-ladder capacity 5 to the
empty pool preserves the invariant. -/
theorem pool_bucket_capacity_invariant_witness :
    PoolInv (MBufPool.give MBufPool.new (MBuf.new 5)) :=
  pool_bucket_capacity_invariant.2.2.2.2.2 MBufPool.new (MBuf.new 5)
    (by intro e he b hb; simp [MBufPool.new] at he)

/-- Claim C8: 0 ≤ length ≤ capacity holds for every fresh buffer and is
preserved by append, successful set_data, in-bounds writes through the
mutable view, and clear (length is a Nat, so 0 ≤ length is inherent). -/
theorem length_le_capacity_invariant :
    (∀ n : Nat, (MBuf.new n).data_len ≤ MBuf.buffer_len (MBuf.new n)) ∧
    (∀ (m : MBuf) (d : List Nat), m.data_len ≤ MBuf.buffer_len m →
      (m.append d).data_len ≤ MBuf.buffer_len (m.append d)) ∧
    (∀ (m : MBuf) (d : List Nat) (m1 : MBuf), m.set_data d = some m1 →
      m1.data_len ≤ MBuf.buffer_len m1) ∧
    (∀ (m : MBuf) (i v : Nat) (m1 : MBuf), m.data_mut_set i v = some m1 →
      m.data_len ≤ MBuf.buffer_len m → m1.data_len ≤ MBuf.buffer_len m1) ∧
    (∀ m : MBuf, (MBuf.clear m).data_len ≤ MBuf.buffer_len (MBuf.clear m)) := by
  refine ⟨?_, ?_, ?_, ?_, ?_⟩
  · intro n
    exact Nat.zero_le _
  · intro m d h
    rcases le_or_lt (m.data_len + d.length) (MBuf.buffer_len m) with hle | hlt
    · obtain ⟨hb, hl, _⟩ := append_fits m d hle
      rw [hb, hl]
      exact hle
    · obtain ⟨hb, hl, _⟩ := append_grows m d h hlt
      rw [hb, hl]
      exact Nat.add_le_add_right h _
  · intro m d m1 hs
    by_cases hc : d.length > MBuf.buffer_len m
    · simp [MBuf.set_data, hc] at hs
    · have hle : d.length ≤ MBuf.buffer_len m := Nat.not_lt.1 hc
      rw [show m.set_data d = some (MBuf.mk (copy_to m.buffer 0 d) d.length 0)
        from by simp [MBuf.set_data, hc]] at hs
      injection hs with h1
      subst h1
      show d.length ≤ (copy_to m.buffer 0 d).length
      rw [length_copy_to _ _ _ (by simpa using hle)]
      exact hle
  · intro m i v m1 hs h
    by_cases hc : i < m.data_len
    · rw [show m.data_mut_set i v = some (MBuf.mk (m.buffer.set i v) m.data_len m.pos)
        from by simp [MBuf.data_mut_set, hc]] at hs
      injection hs with h1
      subst h1
      show m.data_len ≤ (m.buffer.set i v).length
      rw [List.length_set]
      exact h
    · simp [MBuf.data_mut_set, hc] at hs
  · intro m
    exact Nat.zero_le _

/-- Claim C8 witness: the invariant for a fresh 2-byte buffer and after a
growing append. -/
theorem length_le_capacity_invariant_witness :
    ((MBuf.new 2).data_len ≤ MBuf.buffer_len (MBuf.new 2)) ∧
    (((MBuf.new 2).append [9, 9, 9]).data_len ≤
      MBuf.buffer_len ((MBuf.new 2).append [9, 9, 9])) :=
  ⟨by decide, length_le_capacity_invariant.2.1 (MBuf.new 2) [9, 9, 9] (by decide)⟩

/-- Claim C9: clear resets length and position to 0 and keeps capacity;
the data view becomes empty and a subsequent append writes from offset 0,
so the data view afterwards is exactly the appended bytes. -/
theorem clear_spec (m : MBuf) :
    (MBuf.clear m).data_len = 0 ∧ (MBuf.clear m).pos = 0 ∧
    MBuf.buffer_len (MBuf.clear m) = MBuf.buffer_len m ∧
    (MBuf.clear m).data = [] ∧
    ∀ d : List Nat, ((MBuf.clear m).append d).data = d := by
  refine ⟨rfl, rfl, rfl, rfl, ?_⟩
  intro d
  rcases le_or_lt ((MBuf.clear m).data_len + d.length)
      (MBuf.buffer_len (MBuf.clear m)) with hle | hlt
  · obtain ⟨_, _, hdata⟩ := append_fits _ d hle
    rw [hdata]
    simp [MBuf.data, MBuf.clear]
  · obtain ⟨_, _, hdata⟩ := append_grows _ d (Nat.zero_le _) hlt
    rw [hdata]
    simp [MBuf.data, MBuf.clear]

/-- Claim C10: on a pool that was never warmed up the bucket map is empty,
so take returns None for every requested size and leaves the pool
unchanged — the fresh-allocation fallback needs an existing bucket. -/
theorem take_uninitialized_pool (r : Nat) :
    MBufPool.new.take r = (none, MBufPool.new) := by
  cases h : adjust_size r with
  | none => simp [MBufPool.take, h]
  | some sz => simp [MBufPool.take, h, MBufPool.new, hmGet]
